import Mathlib

/-!
Shallow embedding of the prompt-navigation and memory-allocation engine of
the OTYOV repository (the POST /api/prompt-history handler in
src/server/routes.ts), together with theorems settling the claims about it.

Numbers are modelled as `Int` (JS numbers used as integers), prompt letters
as `Char` (the handler manipulates letters through char codes), the
visited-prompts ledger as a list of entries, and the memory pool as a list
of memories.  Every function below mirrors one block of the handler.
-/

namespace OTYOV

/-- One entry of a character's `visitedPrompts` array: a prompt number and
the list of letters visited at that number (routes.ts lines 599-603). -/
structure VisitEntry where
  promptNumber : Int
  letters : List Char
deriving Repr, DecidableEq

/-- The `visitedPrompts` array of a character. -/
abbrev VisitRecord := List VisitEntry

/-- A prompt position: number plus letter. -/
structure Position where
  number : Int
  letter : Char
deriving Repr, DecidableEq

/-- A two-dice roll as sent in the request body. -/
structure Roll where
  d10 : Int
  d6 : Int
deriving Repr, DecidableEq

/-- Whether letter `l` of prompt `n` has been visited according to the
history (a `find` over the `visitedPrompts` array followed by an
`includes` on its `letters`). -/
def visited (history : VisitRecord) (n : Int) (l : Char) : Bool :=
  match history.find? (fun e => e.promptNumber == n) with
  | some e => e.letters.contains l
  | none => false

/-- The fully-visited test of routes.ts lines 467-474: an entry exists,
its `letters` has length at least 3 and contains 'a', 'b' and 'c'.  (The
candidate scan accepts a number exactly when this is false.) -/
def fullyVisited (history : VisitRecord) (n : Int) : Bool :=
  match history.find? (fun e => e.promptNumber == n) with
  | some e =>
      decide (3 ≤ e.letters.length) && e.letters.contains 'a'
        && e.letters.contains 'b' && e.letters.contains 'c'
  | none => false

/-- Letter choice inside the zero-movement redirect scan
(routes.ts lines 479-494): lowest unvisited letter of the candidate
number, 'a' when the number has no entry, with a defensive 'a' default. -/
def scanLetter (history : VisitRecord) (n : Int) : Char :=
  match history.find? (fun e => e.promptNumber == n) with
  | some e =>
      if !(e.letters.contains 'a') then 'a'
      else if !(e.letters.contains 'b') then 'b'
      else if !(e.letters.contains 'c') then 'c'
      else 'a'
  | none => 'a'

/-- Letter choice on the nonzero-movement path when the target number was
visited before (routes.ts lines 521-535); the initial value of
`nextLetter` is 'a' (line 421), which the exhaustive chain overwrites. -/
def moveLetter (ls : List Char) : Char :=
  if ls.contains 'a' && ls.contains 'b' && ls.contains 'c' then 'c'
  else if !(ls.contains 'a') then 'a'
  else if !(ls.contains 'b') then 'b'
  else if !(ls.contains 'c') then 'c'
  else 'a'

/-- Manual first-occurrence deduplication of the catalog's prompt numbers
(routes.ts lines 445-450: a forEach with an `includes` guard). -/
def uniqueNumbers (ns : List Int) : List Int :=
  ns.foldl (fun acc n => if acc.contains n then acc else acc ++ [n]) []

/-- The deduplicated catalog numbers sorted ascending
(routes.ts line 453: `.sort((a, b) => a - b)`). -/
def sortedPromptNumbers (catalog : List Int) : List Int :=
  (uniqueNumbers catalog).insertionSort (· ≤ ·)

/-- The part of the list strictly after the first occurrence of `x`, or
`none` when `x` is absent — the `indexOf` plus loop-from-`currentIndex+1`
idiom of routes.ts lines 458-463. -/
def suffixAfter (x : Int) : List Int → Option (List Int)
  | [] => none
  | n :: rest => if n = x then some rest else suffixAfter x rest

/-- Letter incrementation by char code (routes.ts lines 432-433). -/
def nextLetterChar (c : Char) : Char :=
  Char.ofNat (c.toNat + 1)

/-- Position selection of the handler (routes.ts lines 399-538): given the
catalog's prompt numbers, the current position, the roll and the history,
compute the next prompt number and letter. -/
def advanceCore (catalog : List Int) (current : Position) (roll : Roll)
    (history : VisitRecord) : Int × Char :=
  let movement := roll.d10 - roll.d6
  let nextPrompt := if movement = 0 then current.number
    else max 1 (current.number + movement)
  if movement = 0 then
    let nextLetter := nextLetterChar current.letter
    if current.letter = 'c' then
      let sorted := sortedPromptNumbers catalog
      match suffixAfter current.number sorted with
      | none => (nextPrompt, nextLetter)
      | some rest =>
        match rest.find? (fun n => !(fullyVisited history n)) with
        | some cand => (cand, scanLetter history cand)
        | none => (sorted.getLastD 0 + 1, 'a')
    else (nextPrompt, nextLetter)
  else
    match history.find? (fun e => e.promptNumber == nextPrompt) with
    | some e => (nextPrompt, moveLetter e.letters)
    | none => (nextPrompt, 'a')

/-- Recording the chosen position in `visitedPrompts`
(routes.ts lines 587-604): update the first entry with this number, adding
the letter only when absent, or append a new entry at the end. -/
def recordVisit : VisitRecord → Int → Char → VisitRecord
  | [], n, l => [⟨n, [l]⟩]
  | e :: rest, n, l =>
    if e.promptNumber = n then
      (if e.letters.contains l then e
       else ⟨e.promptNumber, e.letters ++ [l]⟩) :: rest
    else e :: recordVisit rest n l

/-- Result of one navigation step. -/
structure NavResult where
  nextPrompt : Int
  nextLetter : Char
  updatedHistory : VisitRecord
deriving Repr, DecidableEq

/-- The Navigator: position selection followed by the history update. -/
def advance (catalog : List Int) (current : Position) (roll : Roll)
    (history : VisitRecord) : NavResult :=
  let nl := advanceCore catalog current roll history
  ⟨nl.1, nl.2, recordVisit history nl.1 nl.2⟩

/-- One player response stored inside a memory
(routes.ts lines 628-631; the timestamp is passed in explicitly here,
where the handler reads the clock). -/
structure Experience where
  text : String
  createdAt : Nat
deriving Repr, DecidableEq

/-- A memory container (routes.ts lines 663-669): `inDiary` is the spec's
"archived", `strikedOut` the spec's "retired". -/
structure Memory where
  id : String
  title : String
  experiences : List Experience
  inDiary : Bool
  strikedOut : Bool
deriving Repr, DecidableEq

/-- A memory is open when it is neither in the diary nor struck out and
holds fewer than 3 experiences (the findIndex predicate of
routes.ts lines 644-649). -/
def isOpen (m : Memory) : Bool :=
  !m.inDiary && !m.strikedOut && decide (m.experiences.length < 3)

/-- Count of non-retired memories (routes.ts line 659). -/
def activeCount (pool : List Memory) : Nat :=
  (pool.filter (fun m => !m.strikedOut)).length

/-- Append an experience to the first open memory of the pool, mirroring
the findIndex-then-push of routes.ts lines 644-655; `none` when no memory
is open. -/
def appendFirstOpen (e : Experience) : List Memory → Option (List Memory)
  | [] => none
  | m :: rest =>
    if isOpen m then
      some ({ m with experiences := m.experiences ++ [e] } :: rest)
    else (appendFirstOpen e rest).map (m :: ·)

/-- Outcome of one allocation. -/
inductive AllocOutcome where
  | appended
  | created
  | capacityExceeded
deriving Repr, DecidableEq

/-- The Memory Allocator (routes.ts lines 638-679): append to the first
open memory; otherwise create a new memory when fewer than 5 memories are
non-retired; otherwise leave the pool alone.  The fresh identity and the
auto-derived title are passed in (the handler draws the id from
Math.random and the title from the current prompt). -/
def recordResponse (text : String) (ts : Nat) (freshId title : String)
    (pool : List Memory) : List Memory × AllocOutcome :=
  let e : Experience := ⟨text, ts⟩
  match appendFirstOpen e pool with
  | some pool' => (pool', .appended)
  | none =>
    if activeCount pool < 5 then
      (pool ++ [⟨freshId, title, [e], false, false⟩], .created)
    else (pool, .capacityExceeded)

/-- The navigation and memory fields of a character row that the handler
reads and writes. -/
structure CharState where
  currentPrompt : Int
  currentLetter : Char
  visitedPrompts : VisitRecord
  memories : List Memory
deriving Repr, DecidableEq

/-- One promptHistory row as inserted by the handler
(routes.ts lines 611-622): it records the position being answered and the
response text. -/
structure HistoryRow where
  promptNumber : Int
  promptLetter : Char
  response : String
deriving Repr, DecidableEq

/-- The whole roll-submission handler (routes.ts lines 399-709): run the
Navigator, insert the promptHistory row, run the Memory Allocator, and
write the character back — `memories` is only written when the allocator
changed it (lines 681-696). -/
def handleRoll (catalog : List Int) (roll : Roll) (response : String)
    (ts : Nat) (freshId title : String) (ch : CharState)
    (rows : List HistoryRow) : CharState × List HistoryRow × AllocOutcome :=
  let nav := advance catalog ⟨ch.currentPrompt, ch.currentLetter⟩ roll
    ch.visitedPrompts
  let rows' := rows ++ [⟨ch.currentPrompt, ch.currentLetter, response⟩]
  let alloc := recordResponse response ts freshId title ch.memories
  let mems := match alloc.2 with
    | .capacityExceeded => ch.memories
    | _ => alloc.1
  (⟨nav.nextPrompt, nav.nextLetter, nav.updatedHistory, mems⟩, rows', alloc.2)

/-! ## Helper lemmas -/

theorem moveLetter_spec (ls : List Char) :
    moveLetter ls = if ls.contains 'a' = false then 'a'
      else if ls.contains 'b' = false then 'b' else 'c' := by
  unfold moveLetter
  cases ha : ls.contains 'a' <;> cases hb : ls.contains 'b' <;>
    cases hc : ls.contains 'c' <;> simp [ha, hb, hc]

theorem nextLetterChar_a : nextLetterChar 'a' = 'b' := by decide

theorem nextLetterChar_b : nextLetterChar 'b' = 'c' := by decide

theorem visited_cons (e : VisitEntry) (rest : VisitRecord) (m : Int)
    (c : Char) :
    visited (e :: rest) m c =
      if e.promptNumber = m then e.letters.contains c
      else visited rest m c := by
  by_cases h : e.promptNumber = m <;> simp [visited, List.find?_cons, h]

theorem visited_recordVisit (hist : VisitRecord) (n : Int) (l : Char)
    (m : Int) (c : Char) :
    visited (recordVisit hist n l) m c = true ↔
      (visited hist m c = true ∨ (m = n ∧ c = l)) := by
  induction hist with
  | nil =>
    have hrv : recordVisit [] n l = [⟨n, [l]⟩] := rfl
    rw [hrv, visited_cons]
    by_cases hm : n = m
    · subst hm
      simp [visited, List.elem_iff]
    · have hm' : ¬ m = n := fun h => hm h.symm
      simp [visited, hm, hm']
  | cons e rest ih =>
    by_cases hp : e.promptNumber = n
    · by_cases hcl : e.letters.contains l = true
      · have hrv : recordVisit (e :: rest) n l = e :: rest := by
          show (if e.promptNumber = n then
              (if e.letters.contains l then e
               else ⟨e.promptNumber, e.letters ++ [l]⟩) :: rest
            else e :: recordVisit rest n l) = e :: rest
          rw [if_pos hp, if_pos hcl]
        rw [hrv]
        constructor
        · exact Or.inl
        · rintro (h | ⟨rfl, rfl⟩)
          · exact h
          · rw [visited_cons, if_pos hp]
            exact hcl
      · have hrv : recordVisit (e :: rest) n l
            = ⟨e.promptNumber, e.letters ++ [l]⟩ :: rest := by
          show (if e.promptNumber = n then
              (if e.letters.contains l then e
               else ⟨e.promptNumber, e.letters ++ [l]⟩) :: rest
            else e :: recordVisit rest n l)
            = ⟨e.promptNumber, e.letters ++ [l]⟩ :: rest
          rw [if_pos hp, if_neg hcl]
        rw [hrv, visited_cons, visited_cons]
        by_cases hm : e.promptNumber = m
        · rw [if_pos hm, if_pos hm]
          have hmn : m = n := hm.symm.trans hp
          simp [List.elem_iff, hmn]
        · rw [if_neg hm, if_neg hm]
          have hmn : ¬ m = n := fun h => hm (hp.trans h.symm)
          simp [hmn]
    · have hrv : recordVisit (e :: rest) n l = e :: recordVisit rest n l := by
        show (if e.promptNumber = n then
            (if e.letters.contains l then e
             else ⟨e.promptNumber, e.letters ++ [l]⟩) :: rest
          else e :: recordVisit rest n l) = e :: recordVisit rest n l
        rw [if_neg hp]
      rw [hrv, visited_cons, visited_cons]
      by_cases hm : e.promptNumber = m
      · rw [if_pos hm, if_pos hm]
        have hmn : ¬ m = n := fun h => hp (hm.trans h)
        simp [hmn]
      · rw [if_neg hm, if_neg hm]
        exact ih

theorem recordVisit_nodupLetters (hist : VisitRecord) (n : Int) (l : Char)
    (h : ∀ e ∈ hist, e.letters.Nodup) :
    ∀ e ∈ recordVisit hist n l, e.letters.Nodup := by
  induction hist with
  | nil =>
    intro x hx
    have hrv : recordVisit [] n l = [⟨n, [l]⟩] := rfl
    rw [hrv] at hx
    simp at hx
    subst hx
    simp
  | cons e rest ih =>
    intro x hx
    by_cases hp : e.promptNumber = n
    · by_cases hcl : e.letters.contains l = true
      · have hrv : recordVisit (e :: rest) n l = e :: rest := by
          show (if e.promptNumber = n then
              (if e.letters.contains l then e
               else ⟨e.promptNumber, e.letters ++ [l]⟩) :: rest
            else e :: recordVisit rest n l) = e :: rest
          rw [if_pos hp, if_pos hcl]
        rw [hrv] at hx
        exact h x hx
      · have hrv : recordVisit (e :: rest) n l
            = ⟨e.promptNumber, e.letters ++ [l]⟩ :: rest := by
          show (if e.promptNumber = n then
              (if e.letters.contains l then e
               else ⟨e.promptNumber, e.letters ++ [l]⟩) :: rest
            else e :: recordVisit rest n l)
            = ⟨e.promptNumber, e.letters ++ [l]⟩ :: rest
          rw [if_pos hp, if_neg hcl]
        rw [hrv] at hx
        rcases List.mem_cons.mp hx with rfl | hx
        · have h1 : e.letters.Nodup := h e (by simp)
          have h2 : l ∉ e.letters := fun hmem => hcl (List.elem_iff.mpr hmem)
          simp [List.nodup_append, h1, h2]
        · exact h x (by simp [hx])
    · have hrv : recordVisit (e :: rest) n l = e :: recordVisit rest n l := by
        show (if e.promptNumber = n then
            (if e.letters.contains l then e
             else ⟨e.promptNumber, e.letters ++ [l]⟩) :: rest
          else e :: recordVisit rest n l) = e :: recordVisit rest n l
        rw [if_neg hp]
      rw [hrv] at hx
      rcases List.mem_cons.mp hx with rfl | hx
      · exact h x (by simp)
      · exact ih (fun y hy => h y (by simp [hy])) x hx

/-! ## Navigator claims -/

/-- Claim C1: with nonzero movement the next number is
`max 1 (current.number + movement)`, and the next letter is 'a' when
`(number, 'a')` is unvisited, otherwise the lowest unvisited letter in
order a, b, c — 'c' when all three are visited (no forward redirection on
this path). -/
theorem claim_C1 (catalog : List Int) (current : Position) (roll : Roll)
    (history : VisitRecord) (hmv : roll.d10 - roll.d6 ≠ 0) :
    (advance catalog current roll history).nextPrompt
      = max 1 (current.number + (roll.d10 - roll.d6)) ∧
    (advance catalog current roll history).nextLetter
      = (if visited history (max 1 (current.number + (roll.d10 - roll.d6)))
            'a' = false then 'a'
         else if visited history (max 1 (current.number + (roll.d10 - roll.d6)))
            'b' = false then 'b'
         else 'c') := by
  unfold advance advanceCore visited
  simp only [hmv, if_false, ite_false]
  cases hfind : history.find?
      (fun e => e.promptNumber == max 1 (current.number + (roll.d10 - roll.d6))) with
  | none => simp [hfind, hmv]
  | some e => simp [hfind, hmv, moveLetter_spec]

/-- Claim C1 witness at a concrete input. -/
theorem claim_C1_witness :
    (advance [] ⟨1, 'a'⟩ ⟨6, 3⟩ []).nextPrompt
      = max 1 (1 + ((6 : Int) - 3)) ∧
    (advance [] ⟨1, 'a'⟩ ⟨6, 3⟩ []).nextLetter
      = (if visited [] (max 1 (1 + ((6 : Int) - 3))) 'a' = false then 'a'
         else if visited [] (max 1 (1 + ((6 : Int) - 3))) 'b' = false then 'b'
         else 'c') :=
  claim_C1 [] ⟨1, 'a'⟩ ⟨6, 3⟩ [] (by decide)

/-- Claim C3: with zero movement from a letter below 'c' the position
keeps its number, the letter steps a→b→c, and the history gains exactly
the chosen pair (set semantics). -/
theorem claim_C3 (catalog : List Int) (current : Position) (roll : Roll)
    (history : VisitRecord) (h0 : roll.d10 = roll.d6)
    (hl : current.letter = 'a' ∨ current.letter = 'b') :
    (advance catalog current roll history).nextPrompt = current.number ∧
    (advance catalog current roll history).nextLetter
      = (if current.letter = 'a' then 'b' else 'c') ∧
    (∀ m c, visited (advance catalog current roll history).updatedHistory m c
        = true ↔
      (visited history m c = true ∨
        (m = current.number ∧
          c = (if current.letter = 'a' then 'b' else 'c')))) := by
  have hm : roll.d10 - roll.d6 = 0 := sub_eq_zero_of_eq h0
  rcases hl with hl | hl <;>
    simp [advance, advanceCore, hm, hl, nextLetterChar_a, nextLetterChar_b,
      visited_recordVisit]

/-- Claim C3 witness at a concrete input. -/
theorem claim_C3_witness :
    (advance [] ⟨1, 'a'⟩ ⟨5, 5⟩ []).nextPrompt = 1 ∧
    (advance [] ⟨1, 'a'⟩ ⟨5, 5⟩ []).nextLetter
      = (if ('a' : Char) = 'a' then 'b' else 'c') ∧
    (∀ m c, visited (advance [] ⟨1, 'a'⟩ ⟨5, 5⟩ []).updatedHistory m c
        = true ↔
      (visited [] m c = true ∨
        (m = 1 ∧ c = (if ('a' : Char) = 'a' then 'b' else 'c')))) :=
  claim_C3 [] ⟨1, 'a'⟩ ⟨5, 5⟩ [] rfl (Or.inl rfl)

/-- Claim C5 counterexample: moving (movement 1) onto a number whose three
letters are all visited leaves the history exactly equal to the input, so
the updated history is not a *strict* superset. -/
theorem claim_C5_counterexample :
    (advance [] ⟨1, 'a'⟩ ⟨6, 5⟩ [⟨2, ['a', 'b', 'c']⟩]).updatedHistory
      = [⟨2, ['a', 'b', 'c']⟩] := by decide

/-- Claim C5 (amended): the updated history is a superset of the input
history — strict only when the chosen pair was not already visited — it
contains the chosen (number, letter), and no letter is stored twice for a
number (a history with duplicate-free letter sets stays duplicate-free). -/
theorem claim_C5_amended (catalog : List Int) (current : Position)
    (roll : Roll) (history : VisitRecord) :
    (∀ m c, visited history m c = true →
      visited (advance catalog current roll history).updatedHistory m c
        = true) ∧
    visited (advance catalog current roll history).updatedHistory
      (advance catalog current roll history).nextPrompt
      (advance catalog current roll history).nextLetter = true ∧
    ((∀ e ∈ history, e.letters.Nodup) →
      ∀ e ∈ (advance catalog current roll history).updatedHistory,
        e.letters.Nodup) := by
  refine ⟨?_, ?_, ?_⟩
  · intro m c hmc
    exact (visited_recordVisit history _ _ m c).mpr (Or.inl hmc)
  · exact (visited_recordVisit history _ _ _ _).mpr (Or.inr ⟨rfl, rfl⟩)
  · intro hwf
    exact recordVisit_nodupLetters history _ _ hwf

/-- Claim C5 (amended) witness at a concrete input. -/
theorem claim_C5_amended_witness :
    visited (advance [] ⟨1, 'a'⟩ ⟨5, 5⟩ [⟨1, ['a']⟩]).updatedHistory 1 'a'
      = true ∧
    visited (advance [] ⟨1, 'a'⟩ ⟨5, 5⟩ [⟨1, ['a']⟩]).updatedHistory
      (advance [] ⟨1, 'a'⟩ ⟨5, 5⟩ [⟨1, ['a']⟩]).nextPrompt
      (advance [] ⟨1, 'a'⟩ ⟨5, 5⟩ [⟨1, ['a']⟩]).nextLetter = true ∧
    (∀ e ∈ (advance [] ⟨1, 'a'⟩ ⟨5, 5⟩ [⟨1, ['a']⟩]).updatedHistory,
      e.letters.Nodup) := by
  have h := claim_C5_amended [] ⟨1, 'a'⟩ ⟨5, 5⟩ [⟨1, ['a']⟩]
  exact ⟨h.1 1 'a' (by decide), h.2.1, h.2.2 (by decide)⟩

/-! ## Allocator lemmas -/

theorem appendFirstOpen_mem (e : Experience) :
    ∀ {pool pool' : List Memory}, appendFirstOpen e pool = some pool' →
    ∀ m' ∈ pool', m' ∈ pool ∨
      ∃ m, m ∈ pool ∧ isOpen m = true ∧
        m' = { m with experiences := m.experiences ++ [e] } := by
  intro pool
  induction pool with
  | nil => intro pool' h; simp [appendFirstOpen] at h
  | cons m rest ih =>
    intro pool' h m' hm'
    by_cases ho : isOpen m = true
    · rw [show appendFirstOpen e (m :: rest)
          = some ({ m with experiences := m.experiences ++ [e] } :: rest) by
        show (if isOpen m then _ else _) = _
        rw [if_pos ho]] at h
      cases h
      rcases List.mem_cons.mp hm' with rfl | hmem
      · exact Or.inr ⟨m, by simp, ho, rfl⟩
      · exact Or.inl (by simp [hmem])
    · rw [show appendFirstOpen e (m :: rest)
          = (appendFirstOpen e rest).map (m :: ·) by
        show (if isOpen m then _ else _) = _
        rw [if_neg ho]] at h
      cases hmap : appendFirstOpen e rest with
      | none => rw [hmap] at h; cases h
      | some p' =>
        rw [hmap] at h
        cases h
        rcases List.mem_cons.mp hm' with rfl | hmem
        · exact Or.inl (by simp)
        · rcases ih hmap m' hmem with hin | ⟨mm, hmm, hoo, rfl⟩
          · exact Or.inl (by simp [hin])
          · exact Or.inr ⟨mm, by simp [hmm], hoo, rfl⟩

theorem activeCount_cons (m : Memory) (rest : List Memory) :
    activeCount (m :: rest)
      = (if m.strikedOut then 0 else 1) + activeCount rest := by
  by_cases h : m.strikedOut = true <;> simp [activeCount, List.filter_cons, h]
  omega

theorem appendFirstOpen_activeCount (e : Experience) :
    ∀ {pool pool' : List Memory}, appendFirstOpen e pool = some pool' →
    activeCount pool' = activeCount pool := by
  intro pool
  induction pool with
  | nil => intro pool' h; simp [appendFirstOpen] at h
  | cons m rest ih =>
    intro pool' h
    by_cases ho : isOpen m = true
    · rw [show appendFirstOpen e (m :: rest)
          = some ({ m with experiences := m.experiences ++ [e] } :: rest) by
        show (if isOpen m then _ else _) = _
        rw [if_pos ho]] at h
      cases h
      rw [activeCount_cons, activeCount_cons]
    · rw [show appendFirstOpen e (m :: rest)
          = (appendFirstOpen e rest).map (m :: ·) by
        show (if isOpen m then _ else _) = _
        rw [if_neg ho]] at h
      cases hmap : appendFirstOpen e rest with
      | none => rw [hmap] at h; cases h
      | some p' =>
        rw [hmap] at h
        cases h
        rw [activeCount_cons, activeCount_cons, ih hmap]

theorem appendFirstOpen_none (e : Experience) :
    ∀ {pool : List Memory},
    appendFirstOpen e pool = none ↔ ∀ m ∈ pool, isOpen m = false := by
  intro pool
  induction pool with
  | nil => simp [appendFirstOpen]
  | cons m rest ih =>
    by_cases ho : isOpen m = true
    · rw [show appendFirstOpen e (m :: rest)
          = some ({ m with experiences := m.experiences ++ [e] } :: rest) by
        show (if isOpen m then _ else _) = _
        rw [if_pos ho]]
      simp [ho]
    · rw [show appendFirstOpen e (m :: rest)
          = (appendFirstOpen e rest).map (m :: ·) by
        show (if isOpen m then _ else _) = _
        rw [if_neg ho]]
      cases hmap : appendFirstOpen e rest with
      | none =>
        simp only [Option.map_none']
        have ho' : isOpen m = false := by
          revert ho
          cases isOpen m <;> simp
        constructor
        · intro _ a ha
          rcases List.mem_cons.mp ha with rfl | ha
          · exact ho'
          · exact ih.mp hmap a ha
        · intro _
          trivial
      | some p' =>
        simp only [Option.map_some']
        constructor
        · intro h; cases h
        · intro h
          have := ih.mpr (fun x hx => h x (by simp [hx]))
          rw [hmap] at this
          cases this

theorem recordResponse_some (text : String) (ts : Nat) (freshId title : String)
    (pool pool' : List Memory)
    (hap : appendFirstOpen ⟨text, ts⟩ pool = some pool') :
    recordResponse text ts freshId title pool = (pool', .appended) := by
  show (match appendFirstOpen ⟨text, ts⟩ pool with
    | some p => (p, AllocOutcome.appended)
    | none =>
      if activeCount pool < 5 then
        (pool ++ [⟨freshId, title, [⟨text, ts⟩], false, false⟩],
          AllocOutcome.created)
      else (pool, AllocOutcome.capacityExceeded)) = (pool', .appended)
  rw [hap]

theorem recordResponse_created (text : String) (ts : Nat)
    (freshId title : String) (pool : List Memory)
    (hap : appendFirstOpen ⟨text, ts⟩ pool = none)
    (hc : activeCount pool < 5) :
    recordResponse text ts freshId title pool
      = (pool ++ [⟨freshId, title, [⟨text, ts⟩], false, false⟩], .created) := by
  show (match appendFirstOpen ⟨text, ts⟩ pool with
    | some p => (p, AllocOutcome.appended)
    | none =>
      if activeCount pool < 5 then
        (pool ++ [⟨freshId, title, [⟨text, ts⟩], false, false⟩],
          AllocOutcome.created)
      else (pool, AllocOutcome.capacityExceeded))
    = (pool ++ [⟨freshId, title, [⟨text, ts⟩], false, false⟩], .created)
  rw [hap]
  simp [hc]

theorem recordResponse_full (text : String) (ts : Nat)
    (freshId title : String) (pool : List Memory)
    (hap : appendFirstOpen ⟨text, ts⟩ pool = none)
    (hc : ¬ activeCount pool < 5) :
    recordResponse text ts freshId title pool = (pool, .capacityExceeded) := by
  show (match appendFirstOpen ⟨text, ts⟩ pool with
    | some p => (p, AllocOutcome.appended)
    | none =>
      if activeCount pool < 5 then
        (pool ++ [⟨freshId, title, [⟨text, ts⟩], false, false⟩],
          AllocOutcome.created)
      else (pool, AllocOutcome.capacityExceeded)) = (pool, .capacityExceeded)
  rw [hap]
  simp [hc]

/-! ## Allocator claims -/

/-- Claim C6: the allocator preserves the pool invariants — no memory ever
exceeds 3 experiences and the non-retired count never exceeds 5. -/
theorem claim_C6 (text : String) (ts : Nat) (freshId title : String)
    (pool : List Memory) (h3 : ∀ m ∈ pool, m.experiences.length ≤ 3)
    (h5 : activeCount pool ≤ 5) :
    (∀ m ∈ (recordResponse text ts freshId title pool).1,
      m.experiences.length ≤ 3) ∧
    activeCount (recordResponse text ts freshId title pool).1 ≤ 5 := by
  cases hap : appendFirstOpen ⟨text, ts⟩ pool with
  | some pool' =>
    rw [recordResponse_some text ts freshId title pool pool' hap]
    constructor
    · intro m hm
      rcases appendFirstOpen_mem ⟨text, ts⟩ hap m hm with hin | ⟨mm, hmm, ho, rfl⟩
      · exact h3 m hin
      · have hlen : mm.experiences.length < 3 := by
          have hc := ho
          simp [isOpen] at hc
          tauto
        simp only [List.length_append, List.length_singleton]
        omega
    · rw [appendFirstOpen_activeCount ⟨text, ts⟩ hap]
      exact h5
  | none =>
    by_cases hc : activeCount pool < 5
    · rw [recordResponse_created text ts freshId title pool hap hc]
      constructor
      · intro m hm
        rcases List.mem_append.mp hm with hin | hnew
        · exact h3 m hin
        · simp at hnew
          subst hnew
          simp
      · simp only [activeCount, List.filter_append]
        simp [activeCount] at hc ⊢
        omega
    · rw [recordResponse_full text ts freshId title pool hap hc]
      exact ⟨h3, h5⟩

/-- Claim C6 witness at a concrete input. -/
theorem claim_C6_witness :
    (∀ m ∈ (recordResponse "resp" 0 "id0" "title0" []).1,
      m.experiences.length ≤ 3) ∧
    activeCount (recordResponse "resp" 0 "id0" "title0" []).1 ≤ 5 :=
  claim_C6 "resp" 0 "id0" "title0" [] (by simp) (by decide)

/-- Claim C7: on a legal pool the outcome is CapacityExceeded exactly when
the pool holds 5 non-retired memories and none is open, and then the pool
is returned unchanged and an identical second call yields the same
outcome. -/
theorem claim_C7 (text : String) (ts : Nat) (freshId title : String)
    (pool : List Memory) (h5 : activeCount pool ≤ 5) :
    ((recordResponse text ts freshId title pool).2
        = AllocOutcome.capacityExceeded ↔
      ((∀ m ∈ pool, isOpen m = false) ∧ activeCount pool = 5)) ∧
    ((recordResponse text ts freshId title pool).2
        = AllocOutcome.capacityExceeded →
      (recordResponse text ts freshId title pool).1 = pool ∧
      (recordResponse text ts freshId title
          (recordResponse text ts freshId title pool).1).2
        = AllocOutcome.capacityExceeded) := by
  cases hap : appendFirstOpen ⟨text, ts⟩ pool with
  | some pool' =>
    rw [recordResponse_some text ts freshId title pool pool' hap]
    constructor
    · constructor
      · intro h; cases h
      · rintro ⟨hnone, _⟩
        rw [(appendFirstOpen_none ⟨text, ts⟩).mpr hnone] at hap
        cases hap
    · intro h; cases h
  | none =>
    by_cases hc : activeCount pool < 5
    · rw [recordResponse_created text ts freshId title pool hap hc]
      constructor
      · constructor
        · intro h
          cases h
        · rintro ⟨_, h5'⟩
          omega
      · intro h
        cases h
    · rw [recordResponse_full text ts freshId title pool hap hc]
      constructor
      · constructor
        · intro _
          exact ⟨(appendFirstOpen_none ⟨text, ts⟩).mp hap, by omega⟩
        · intro _
          rfl
      · intro _
        refine ⟨rfl, ?_⟩
        rw [recordResponse_full text ts freshId title pool hap hc]

/-- Claim C7 witness at a concrete full pool. -/
theorem claim_C7_witness :
    ((recordResponse "resp" 0 "id0" "title0"
        (List.replicate 5
          ⟨"m", "t", [⟨"x", 0⟩, ⟨"y", 0⟩, ⟨"z", 0⟩], false, false⟩)).2
      = AllocOutcome.capacityExceeded ↔
      ((∀ m ∈ List.replicate 5
          (⟨"m", "t", [⟨"x", 0⟩, ⟨"y", 0⟩, ⟨"z", 0⟩], false,
            false⟩ : Memory), isOpen m = false) ∧
        activeCount (List.replicate 5
          (⟨"m", "t", [⟨"x", 0⟩, ⟨"y", 0⟩, ⟨"z", 0⟩], false,
            false⟩ : Memory)) = 5)) ∧
    ((recordResponse "resp" 0 "id0" "title0"
        (List.replicate 5
          ⟨"m", "t", [⟨"x", 0⟩, ⟨"y", 0⟩, ⟨"z", 0⟩], false, false⟩)).2
      = AllocOutcome.capacityExceeded →
      (recordResponse "resp" 0 "id0" "title0"
        (List.replicate 5
          ⟨"m", "t", [⟨"x", 0⟩, ⟨"y", 0⟩, ⟨"z", 0⟩], false, false⟩)).1
        = List.replicate 5
          ⟨"m", "t", [⟨"x", 0⟩, ⟨"y", 0⟩, ⟨"z", 0⟩], false, false⟩ ∧
      (recordResponse "resp" 0 "id0" "title0"
        (recordResponse "resp" 0 "id0" "title0"
          (List.replicate 5
            ⟨"m", "t", [⟨"x", 0⟩, ⟨"y", 0⟩, ⟨"z", 0⟩], false, false⟩)).1).2
        = AllocOutcome.capacityExceeded) :=
  claim_C7 "resp" 0 "id0" "title0" _ (by decide)

theorem appendFirstOpen_split (e : Experience) :
    ∀ (front : List Memory) (m : Memory) (back : List Memory),
    (∀ x ∈ front, isOpen x = false) → isOpen m = true →
    appendFirstOpen e (front ++ m :: back)
      = some (front ++ { m with experiences := m.experiences ++ [e] } :: back) := by
  intro front
  induction front with
  | nil =>
    intro m back _ ho
    show (if isOpen m then _ else _) = _
    rw [if_pos ho]
    simp
  | cons x rest ih =>
    intro m back hcl ho
    have hx : isOpen x = false := hcl x (by simp)
    have hstep : appendFirstOpen e ((x :: rest) ++ m :: back)
        = (appendFirstOpen e (rest ++ m :: back)).map (x :: ·) := by
      show (if isOpen x then
          some ({ x with experiences := x.experiences ++ [e] }
            :: (rest ++ m :: back))
        else (appendFirstOpen e (rest ++ m :: back)).map (x :: ·))
        = (appendFirstOpen e (rest ++ m :: back)).map (x :: ·)
      rw [if_neg (by simp [hx])]
    rw [hstep, ih m back (fun y hy => hcl y (by simp [hy])) ho]
    simp

/-- Claim C8: allocation order — with an open memory present, the
experience is appended to the first open memory in pool order (outcome
Appended); with none open and fewer than 5 non-retired memories, a fresh
single-experience memory is appended to the end (outcome Created). -/
theorem claim_C8 (text : String) (ts : Nat) (freshId title : String) :
    (∀ (front : List Memory) (m : Memory) (back : List Memory),
      (∀ x ∈ front, isOpen x = false) → isOpen m = true →
      recordResponse text ts freshId title (front ++ m :: back)
        = (front ++
            { m with experiences := m.experiences ++ [⟨text, ts⟩] } :: back,
           AllocOutcome.appended)) ∧
    (∀ pool : List Memory, (∀ m ∈ pool, isOpen m = false) →
      activeCount pool < 5 →
      recordResponse text ts freshId title pool
        = (pool ++ [⟨freshId, title, [⟨text, ts⟩], false, false⟩],
           AllocOutcome.created)) := by
  constructor
  · intro front m back hcl ho
    exact recordResponse_some text ts freshId title _ _
      (appendFirstOpen_split ⟨text, ts⟩ front m back hcl ho)
  · intro pool hnone hc
    exact recordResponse_created text ts freshId title pool
      ((appendFirstOpen_none ⟨text, ts⟩).mpr hnone) hc

/-- Claim C8 witness: both branches at concrete inputs. -/
theorem claim_C8_witness :
    (recordResponse "resp" 0 "id0" "title0"
        ([⟨"m1", "t1", [⟨"x", 0⟩, ⟨"y", 0⟩, ⟨"z", 0⟩], false, false⟩]
          ++ (⟨"m2", "t2", [], false, false⟩ : Memory) :: [])
      = ([⟨"m1", "t1", [⟨"x", 0⟩, ⟨"y", 0⟩, ⟨"z", 0⟩], false, false⟩]
          ++ ({ (⟨"m2", "t2", [], false, false⟩ : Memory) with
                experiences := ([] : List Experience) ++ [⟨"resp", 0⟩] } : Memory)
            :: [],
         AllocOutcome.appended)) ∧
    (recordResponse "resp" 0 "id0" "title0" []
      = (([] : List Memory) ++ [⟨"id0", "title0", [⟨"resp", 0⟩], false, false⟩],
         AllocOutcome.created)) := by
  have h := claim_C8 "resp" 0 "id0" "title0"
  exact ⟨h.1 [⟨"m1", "t1", [⟨"x", 0⟩, ⟨"y", 0⟩, ⟨"z", 0⟩], false, false⟩]
      ⟨"m2", "t2", [], false, false⟩ [] (by decide) (by decide),
    h.2 [] (by simp) (by decide)⟩

/-- Claim C9 counterexample: a corrupted pool already over the 5-cap (6
non-retired memories) is not rejected — the allocator proceeds and appends
to the open memory. -/
theorem claim_C9_counterexample :
    activeCount
        ((⟨"m0", "t0", [], false, false⟩ : Memory) ::
          List.replicate 5
            ⟨"m", "t", [⟨"x", 0⟩, ⟨"y", 0⟩, ⟨"z", 0⟩], false, false⟩) = 6 ∧
    (recordResponse "resp" 0 "fresh" "title"
        ((⟨"m0", "t0", [], false, false⟩ : Memory) ::
          List.replicate 5
            ⟨"m", "t", [⟨"x", 0⟩, ⟨"y", 0⟩, ⟨"z", 0⟩], false, false⟩)).2
      = AllocOutcome.appended := by decide

/-- Claim C9 (amended): the core performs no corrupt-state validation —
whenever some memory is open the allocator returns Appended and proceeds,
regardless of whether the pool already violates the 5 non-retired cap; no
distinct corrupt-state outcome exists. -/
theorem claim_C9_amended (text : String) (ts : Nat) (freshId title : String)
    (pool : List Memory) (h : ∃ m ∈ pool, isOpen m = true) :
    (recordResponse text ts freshId title pool).2 = AllocOutcome.appended := by
  cases hap : appendFirstOpen ⟨text, ts⟩ pool with
  | some pool' =>
    rw [recordResponse_some text ts freshId title pool pool' hap]
  | none =>
    rcases h with ⟨m, hm, ho⟩
    have := (appendFirstOpen_none ⟨text, ts⟩).mp hap m hm
    rw [ho] at this
    cases this

/-- Claim C9 (amended) witness at the over-cap pool. -/
theorem claim_C9_amended_witness :
    (recordResponse "resp" 0 "fresh" "title"
        ((⟨"m0", "t0", [], false, false⟩ : Memory) ::
          List.replicate 5
            ⟨"m", "t", [⟨"x", 0⟩, ⟨"y", 0⟩, ⟨"z", 0⟩], false, false⟩)).2
      = AllocOutcome.appended :=
  claim_C9_amended "resp" 0 "fresh" "title" _ (by decide)

/-! ## Handler claims -/

/-- Claim C10: the handler always inserts the prompt-history row and
always writes the Navigator's position and visitation history, with the
navigation outputs independent of the memory pool; when the pool is full
(5 non-retired, none open) the memories are left unchanged while the roll
still completes. -/
theorem claim_C10 (catalog : List Int) (roll : Roll) (response : String)
    (ts : Nat) (freshId title : String) (ch : CharState)
    (rows : List HistoryRow) :
    ((handleRoll catalog roll response ts freshId title ch rows).2.1
      = rows ++ [⟨ch.currentPrompt, ch.currentLetter, response⟩]) ∧
    ((handleRoll catalog roll response ts freshId title ch rows).1.currentPrompt
      = (advance catalog ⟨ch.currentPrompt, ch.currentLetter⟩ roll
          ch.visitedPrompts).nextPrompt) ∧
    ((handleRoll catalog roll response ts freshId title ch rows).1.currentLetter
      = (advance catalog ⟨ch.currentPrompt, ch.currentLetter⟩ roll
          ch.visitedPrompts).nextLetter) ∧
    ((handleRoll catalog roll response ts freshId title ch rows).1.visitedPrompts
      = (advance catalog ⟨ch.currentPrompt, ch.currentLetter⟩ roll
          ch.visitedPrompts).updatedHistory) ∧
    (∀ pool' : List Memory,
      ((handleRoll catalog roll response ts freshId title
          { ch with memories := pool' } rows).1.currentPrompt
        = (handleRoll catalog roll response ts freshId title ch
            rows).1.currentPrompt) ∧
      ((handleRoll catalog roll response ts freshId title
          { ch with memories := pool' } rows).1.currentLetter
        = (handleRoll catalog roll response ts freshId title ch
            rows).1.currentLetter) ∧
      ((handleRoll catalog roll response ts freshId title
          { ch with memories := pool' } rows).1.visitedPrompts
        = (handleRoll catalog roll response ts freshId title ch
            rows).1.visitedPrompts) ∧
      ((handleRoll catalog roll response ts freshId title
          { ch with memories := pool' } rows).2.1
        = (handleRoll catalog roll response ts freshId title ch rows).2.1)) ∧
    ((∀ m ∈ ch.memories, isOpen m = false) → activeCount ch.memories = 5 →
      ((handleRoll catalog roll response ts freshId title ch rows).1.memories
          = ch.memories ∧
        (handleRoll catalog roll response ts freshId title ch rows).2.2
          = AllocOutcome.capacityExceeded)) := by
  refine ⟨rfl, rfl, rfl, rfl, fun pool' => ⟨rfl, rfl, rfl, rfl⟩, ?_⟩
  intro hnone h5
  have hfull := recordResponse_full response ts freshId title ch.memories
    ((appendFirstOpen_none ⟨response, ts⟩).mpr hnone) (by omega)
  constructor
  · show (match (recordResponse response ts freshId title ch.memories).2 with
      | AllocOutcome.capacityExceeded => ch.memories
      | _ => (recordResponse response ts freshId title ch.memories).1)
      = ch.memories
    rw [hfull]
  · show (recordResponse response ts freshId title ch.memories).2
      = AllocOutcome.capacityExceeded
    rw [hfull]

/-- Claim C10 witness at a concrete full-pool input. -/
theorem claim_C10_witness :
    ((handleRoll [] ⟨6, 5⟩ "resp" 0 "id0" "t0"
        ⟨1, 'a', [], List.replicate 5
          ⟨"m", "t", [⟨"x", 0⟩, ⟨"y", 0⟩, ⟨"z", 0⟩], false, false⟩⟩
        []).1.memories
      = List.replicate 5
          ⟨"m", "t", [⟨"x", 0⟩, ⟨"y", 0⟩, ⟨"z", 0⟩], false, false⟩ ∧
    (handleRoll [] ⟨6, 5⟩ "resp" 0 "id0" "t0"
        ⟨1, 'a', [], List.replicate 5
          ⟨"m", "t", [⟨"x", 0⟩, ⟨"y", 0⟩, ⟨"z", 0⟩], false, false⟩⟩
        []).2.2 = AllocOutcome.capacityExceeded) ∧
    (handleRoll [] ⟨6, 5⟩ "resp" 0 "id0" "t0"
        ⟨1, 'a', [], List.replicate 5
          ⟨"m", "t", [⟨"x", 0⟩, ⟨"y", 0⟩, ⟨"z", 0⟩], false, false⟩⟩
        []).2.1 = [] ++ [⟨1, 'a', "resp"⟩] := by
  have h := claim_C10 [] ⟨6, 5⟩ "resp" 0 "id0" "t0"
    ⟨1, 'a', [], List.replicate 5
      ⟨"m", "t", [⟨"x", 0⟩, ⟨"y", 0⟩, ⟨"z", 0⟩], false, false⟩⟩ []
  exact ⟨h.2.2.2.2.2 (by decide) (by decide), h.1⟩

/-- Claim C2: evaluation at the failing input.  With equal dice at letter
'c' on a prompt number absent from the catalog (here number 2 with
catalog {1}, a state the handler itself creates by redirecting past the
highest catalog number), the handler does not redirect: it stays at the
same number and emits the nonexistent letter 'd', which is then recorded
in the history. -/
theorem claim_C2_eval :
    advance [1] ⟨2, 'c'⟩ ⟨4, 4⟩ [⟨1, ['a', 'b', 'c']⟩, ⟨2, ['a', 'b', 'c']⟩]
      = ⟨2, 'd', [⟨1, ['a', 'b', 'c']⟩, ⟨2, ['a', 'b', 'c', 'd']⟩]⟩ ∧
    ¬ ((2 : Int) < 2) ∧ ('d' ≠ 'a' ∧ 'd' ≠ 'b' ∧ 'd' ≠ 'c') := by decide

/-- Claim C4 counterexample: with catalog {1}, current position (1, 'c'),
equal dice, and a history where number 2 (beyond the catalog) already has
letter 'a' visited, the fallback redirects to (2, 'a') — a number that is
present in the history and whose letter 'a' is already visited, so the
target is neither fresh nor chosen from history-aware known numbers. -/
theorem claim_C4_counterexample :
    advanceCore [1] ⟨1, 'c'⟩ ⟨4, 4⟩ [⟨1, ['a', 'b', 'c']⟩, ⟨2, ['a']⟩]
      = (2, 'a') ∧
    visited [⟨1, ['a', 'b', 'c']⟩, ⟨2, ['a']⟩] 2 'a' = true := by decide

/-! ## Sorted-catalog lemmas for the redirect fallback -/

theorem uniqueNumbers_foldl_mem (l : List Int) :
    ∀ (acc : List Int) (n : Int),
    n ∈ l.foldl (fun acc n => if acc.contains n then acc else acc ++ [n]) acc
      ↔ (n ∈ acc ∨ n ∈ l) := by
  induction l with
  | nil =>
    intro acc n
    simp
  | cons a t ih =>
    intro acc n
    rw [List.foldl_cons]
    by_cases hc : acc.contains a = true
    · rw [if_pos hc, ih]
      have ha : a ∈ acc := List.elem_iff.mp hc
      constructor
      · rintro (h | h)
        · exact Or.inl h
        · exact Or.inr (List.mem_cons_of_mem a h)
      · rintro (h | h)
        · exact Or.inl h
        · rcases List.mem_cons.mp h with rfl | h
          · exact Or.inl ha
          · exact Or.inr h
    · rw [if_neg hc, ih]
      simp only [List.mem_append, List.mem_singleton, List.mem_cons]
      tauto

theorem uniqueNumbers_foldl_nodup (l : List Int) :
    ∀ acc : List Int, acc.Nodup →
    (l.foldl (fun acc n => if acc.contains n then acc
      else acc ++ [n]) acc).Nodup := by
  induction l with
  | nil =>
    intro acc h
    simpa using h
  | cons a t ih =>
    intro acc h
    rw [List.foldl_cons]
    by_cases hc : acc.contains a = true
    · rw [if_pos hc]
      exact ih acc h
    · rw [if_neg hc]
      refine ih _ ?_
      have ha : a ∉ acc := fun hmem => hc (List.elem_iff.mpr hmem)
      simp [List.nodup_append, h, ha]

theorem uniqueNumbers_mem (l : List Int) (n : Int) :
    n ∈ uniqueNumbers l ↔ n ∈ l := by
  have h := uniqueNumbers_foldl_mem l [] n
  simpa [uniqueNumbers] using h

theorem uniqueNumbers_nodup (l : List Int) : (uniqueNumbers l).Nodup :=
  uniqueNumbers_foldl_nodup l [] List.nodup_nil

theorem sortedPromptNumbers_mem (catalog : List Int) (n : Int) :
    n ∈ sortedPromptNumbers catalog ↔ n ∈ catalog := by
  rw [sortedPromptNumbers, List.mem_insertionSort, uniqueNumbers_mem]

theorem sortedPromptNumbers_sorted (catalog : List Int) :
    (sortedPromptNumbers catalog).Sorted (· ≤ ·) :=
  List.sorted_insertionSort _ _

theorem sortedPromptNumbers_nodup (catalog : List Int) :
    (sortedPromptNumbers catalog).Nodup :=
  (List.perm_insertionSort _ _).nodup_iff.mpr (uniqueNumbers_nodup _)

theorem sortedPromptNumbers_sortedLT (catalog : List Int) :
    (sortedPromptNumbers catalog).Sorted (· < ·) := by
  have h1 : (sortedPromptNumbers catalog).Pairwise (· ≤ ·) :=
    sortedPromptNumbers_sorted catalog
  have h2 : (sortedPromptNumbers catalog).Pairwise (· ≠ ·) :=
    sortedPromptNumbers_nodup catalog
  exact (h1.and h2).imp fun h => lt_of_le_of_ne h.1 h.2

theorem suffixAfter_eq_some {l : List Int} (hs : l.Sorted (· < ·)) {x : Int}
    (hx : x ∈ l) :
    ∃ rest, suffixAfter x l = some rest ∧
      ∀ n, n ∈ rest ↔ (n ∈ l ∧ x < n) := by
  induction l with
  | nil => cases hx
  | cons a t ih =>
    have hat : ∀ b ∈ t, a < b := List.rel_of_sorted_cons hs
    have hts : t.Sorted (· < ·) := hs.of_cons
    by_cases hax : a = x
    · subst hax
      refine ⟨t, by simp [suffixAfter], fun n => ?_⟩
      constructor
      · intro hn
        exact ⟨List.mem_cons_of_mem a hn, hat n hn⟩
      · rintro ⟨hn, hlt⟩
        rcases List.mem_cons.mp hn with rfl | hn
        · exact absurd hlt (lt_irrefl n)
        · exact hn
    · have hxt : x ∈ t := by
        rcases List.mem_cons.mp hx with rfl | h
        · exact absurd rfl hax
        · exact h
      rcases ih hts hxt with ⟨rest, hsome, hmem⟩
      refine ⟨rest, by simp [suffixAfter, hax, hsome], fun n => ?_⟩
      rw [hmem n]
      constructor
      · rintro ⟨hn, hlt⟩
        exact ⟨List.mem_cons_of_mem a hn, hlt⟩
      · rintro ⟨hn, hlt⟩
        rcases List.mem_cons.mp hn with rfl | hn
        · exact absurd hlt (not_lt.mpr (le_of_lt (hat x hxt)))
        · exact ⟨hn, hlt⟩

theorem getLastD_mem (l : List Int) : ∀ (d : Int), l ≠ [] → l.getLastD d ∈ l := by
  induction l with
  | nil =>
    intro d h
    exact absurd rfl h
  | cons a t ih =>
    intro d _
    rw [List.getLastD_cons]
    cases t with
    | nil => simp [List.getLastD]
    | cons b u => exact List.mem_cons_of_mem a (ih a (by simp))

theorem le_getLastD (l : List Int) : ∀ (d : Int), l.Sorted (· ≤ ·) →
    ∀ n ∈ l, n ≤ l.getLastD d := by
  induction l with
  | nil =>
    intro d _ n hn
    cases hn
  | cons a t ih =>
    intro d hs n hn
    rw [List.getLastD_cons]
    rcases List.mem_cons.mp hn with rfl | hn
    · cases t with
      | nil => simp [List.getLastD]
      | cons b u =>
        have hab : n ≤ b := List.rel_of_sorted_cons hs b (by simp)
        have hbu : b ≤ (b :: u).getLastD n := ih n hs.of_cons b (by simp)
        exact le_trans hab hbu
    · exact ih a hs.of_cons n hn

/-- Claim C4 (amended): when the current number is in the catalog and
every catalog number greater than it is fully visited, the zero-movement
redirect falls back to (max catalog prompt number + 1, 'a'); the maximum
ranges over the catalog only — history numbers are not consulted — and
the target may already appear in the history. -/
theorem claim_C4_amended (catalog : List Int) (current : Position)
    (roll : Roll) (history : VisitRecord) (h0 : roll.d10 = roll.d6)
    (hc : current.letter = 'c') (hmem : current.number ∈ catalog)
    (hfull : ∀ n ∈ catalog, current.number < n →
      fullyVisited history n = true) :
    ∃ m, m ∈ catalog ∧ (∀ n ∈ catalog, n ≤ m) ∧
      advanceCore catalog current roll history = (m + 1, 'a') := by
  have hm0 : roll.d10 - roll.d6 = 0 := sub_eq_zero_of_eq h0
  have hmemS : current.number ∈ sortedPromptNumbers catalog :=
    (sortedPromptNumbers_mem catalog current.number).mpr hmem
  rcases suffixAfter_eq_some (sortedPromptNumbers_sortedLT catalog) hmemS with
    ⟨rest, hsuf, hrest⟩
  have hfind : rest.find? (fun n => !(fullyVisited history n)) = none := by
    rw [List.find?_eq_none]
    intro n hn
    rcases (hrest n).mp hn with ⟨hnS, hlt⟩
    have hv := hfull n ((sortedPromptNumbers_mem catalog n).mp hnS) hlt
    simp [hv]
  have hne : sortedPromptNumbers catalog ≠ [] := by
    intro h
    rw [h] at hmemS
    cases hmemS
  refine ⟨(sortedPromptNumbers catalog).getLastD 0, ?_, ?_, ?_⟩
  · exact (sortedPromptNumbers_mem catalog _).mp
      (getLastD_mem (sortedPromptNumbers catalog) 0 hne)
  · intro n hn
    exact le_getLastD (sortedPromptNumbers catalog) 0
      (sortedPromptNumbers_sorted catalog) n
      ((sortedPromptNumbers_mem catalog n).mpr hn)
  · unfold advanceCore
    simp only [hm0, hc, if_true, ite_true, eq_self_iff_true]
    rw [hsuf]
    simp only [hfind]

/-- Claim C4 (amended) witness at a concrete input. -/
theorem claim_C4_witness :
    ∃ m, m ∈ [(1 : Int), 2] ∧ (∀ n ∈ [(1 : Int), 2], n ≤ m) ∧
      advanceCore [1, 2] ⟨1, 'c'⟩ ⟨4, 4⟩ [⟨2, ['a', 'b', 'c']⟩]
        = (m + 1, 'a') :=
  claim_C4_amended [1, 2] ⟨1, 'c'⟩ ⟨4, 4⟩ [⟨2, ['a', 'b', 'c']⟩] rfl rfl
    (by decide) (by decide)

end OTYOV
